import Mathlib

/-!
Verification of the numerical-integration engine of PHYS5032 lecture 08
(Trapezoidal rule, Simpson rule, Euler–McLaurin error estimate,
round-off/truncation step-size heuristic).

The executable cells of the notebook are embedded over exact rational
arithmetic: `numpy.arange` becomes `arange`, the Trapezoidal-rule cell
becomes `integral1`, the Simpson-rule cell becomes `integral`, and the
Euler–McLaurin error cell becomes `error_mc`.  Components that the
specification describes but that appear in the source only as markdown
derivations (input validation, the step-size optimizer) are modelled
from the spec, over ℝ where real powers are needed.
-/

/-- `numpy.arange(start, stop, step)` in exact arithmetic: the points
`start + i*step` for `i = 0, 1, …`, strictly below `stop`; its length is
`⌈(stop - start)/step⌉` (for positive step), as in numpy. -/
def arange (start stop step : ℚ) : List ℚ :=
  (List.range (⌈(stop - start) / step⌉).toNat).map (fun (i : ℕ) => start + (i : ℚ) * step)

/-- The Trapezoidal-rule cell of the notebook:
`integral1 = 0.5*h*(f(a)+f(b)) + sum(f(arange(a+h,b,h)))*h` with
`h = (b-a)/N`, parameterized by the integrand `f`, the interval `[a,b]`
and the bin count `N` that the cell fixes to `a=0; b=1; N=10`. -/
def integral1 (f : ℚ → ℚ) (a b : ℚ) (N : ℕ) : ℚ :=
  let h := (b - a) / N
  0.5 * h * (f a + f b) + ((arange (a + h) b h).map f).sum * h

/-- The Simpson-rule cell of the notebook:
`x_odd = arange(a+h,b,2*h)`, `x_even = arange(a+2*h,b,2*h)`,
`integral = h*(1/3)*(f(a)+f(b)+4*sum(f(x_odd))+2*sum(f(x_even)))` with
`h = (b-a)/N`, parameterized by `f`, `[a,b]` and `N`. -/
def integral (f : ℚ → ℚ) (a b : ℚ) (N : ℕ) : ℚ :=
  let h := (b - a) / N
  let y_odd := (arange (a + h) b (2 * h)).map f
  let y_even := (arange (a + 2 * h) b (2 * h)).map f
  h * (1/3) * (f a + f b + 4 * y_odd.sum + 2 * y_even.sum)

/-- The Euler–McLaurin error cell of the notebook,
`error_mc = abs((1/12)*(h**2)*(0 - 4))`, with the hard-coded endpoint
derivative values `f'(a) = 0`, `f'(b) = 4` of `f(x)=x⁴` on `[0,1]`
generalized to parameters `fpa`, `fpb` following the source's own
formula `(1/12)·h²·(f'(a) − f'(b))`. -/
def error_mc (h fpa fpb : ℚ) : ℚ :=
  |(1/12) * h^2 * (fpa - fpb)|

/-- Modelled from the spec: the error kinds of the quadrature engine's
input validation ("InvalidInterval — a ≥ b", "InvalidPartition — N <
required minimum, or (Simpson) N odd").  The notebook contains no
validation code; only the spec describes it. -/
inductive QuadError where
  | InvalidInterval
  | InvalidPartition
  deriving DecidableEq

/-- Modelled from the spec: the Trapezoidal rule with the input validation
of §4.1/§7 ("Fails with an InvalidInterval error if a ≥ b, or
InvalidPartition if N < 1"), checked in that order, wrapped around the
notebook's `integral1`.  The validation itself is absent from the source. -/
def integral1Checked (f : ℚ → ℚ) (a b : ℚ) (N : ℕ) : Except QuadError ℚ :=
  if a ≥ b then .error .InvalidInterval
  else if N < 1 then .error .InvalidPartition
  else .ok (integral1 f a b N)

/-- Modelled from the spec: Simpson's rule with the input validation of
§4.2/§7 ("Must reject odd N with InvalidPartition. Must reject N < 2";
"InvalidInterval — a ≥ b"), interval checked first as in §7's listing,
wrapped around the notebook's `integral`.  The validation itself is
absent from the source. -/
def integralChecked (f : ℚ → ℚ) (a b : ℚ) (N : ℕ) : Except QuadError ℚ :=
  if a ≥ b then .error .InvalidInterval
  else if N < 2 ∨ N % 2 = 1 then .error .InvalidPartition
  else .ok (integral f a b N)

/-- Modelled from the spec: the total-error model of §4.4,
`total_error(h) = C·h^p + ε·h^{-1/2}`. -/
noncomputable def totalError (p C ε h : ℝ) : ℝ :=
  C * h ^ p + ε * h ^ (-(1/2) : ℝ)

/-- Modelled from the spec: the documented step-size heuristic of §4.4 and
the source's markdown derivation (`⅓h² = ε·h^{-1/2}` solved as
`h = (3ε)^{2/5}`), in general form: the solution `h* = (ε/C)^{2/(2p+1)}`
of `C·h^p = ε·h^{-1/2}`. -/
noncomputable def hStar (p C ε : ℝ) : ℝ :=
  (ε / C) ^ ((2 : ℝ) / (2 * p + 1))

/-- Modelled from the spec: the step-size optimizer of §4.4, returning the
recommended `h*` together with the predicted total error at `h*`. -/
noncomputable def optimize (p C ε : ℝ) : ℝ × ℝ :=
  (hStar p C ε, totalError p C ε (hStar p C ε))

/-- The points at which the Trapezoidal cell evaluates the integrand: the
endpoint calls `f(a)`, `f(b)` and the vectorized call `f(x)` on
`x = arange(a+h, b, h)`. -/
def integral1Points (a b : ℚ) (N : ℕ) : List ℚ :=
  let h := (b - a) / N
  [a, b] ++ arange (a + h) b h

/-- The points at which the Simpson cell evaluates the integrand: the
endpoint calls `f(a)`, `f(b)` and the vectorized calls on
`x_odd = arange(a+h, b, 2h)` and `x_even = arange(a+2h, b, 2h)`. -/
def integralPoints (a b : ℚ) (N : ℕ) : List ℚ :=
  let h := (b - a) / N
  [a, b] ++ arange (a + h) b (2 * h) ++ arange (a + 2 * h) b (2 * h)

/-- The cubic polynomial `c₀ + c₁x + c₂x² + c₃x³`. -/
def cubic (c0 c1 c2 c3 x : ℚ) : ℚ :=
  c0 + c1 * x + c2 * x^2 + c3 * x^3

/-- The antiderivative `c₀x + c₁x²/2 + c₂x³/3 + c₃x⁴/4` of `cubic`. -/
def cubicPrim (c0 c1 c2 c3 x : ℚ) : ℚ :=
  c0 * x + c1 * x^2 / 2 + c2 * x^3 / 3 + c3 * x^4 / 4

/-- The exact integral `∫_a^b (c₀ + c₁x + c₂x² + c₃x³) dx` in closed form. -/
def cubicIntegral (c0 c1 c2 c3 a b : ℚ) : ℚ :=
  cubicPrim c0 c1 c2 c3 b - cubicPrim c0 c1 c2 c3 a

section Helpers

/-- Unfold `arange` once the ceiling of the step count is known. -/
lemma arange_eq_of_ceil {start stop step : ℚ} {n : ℕ}
    (h : ⌈(stop - start) / step⌉ = (n : ℤ)) :
    arange start stop step = (List.range n).map (fun (i : ℕ) => start + (i : ℚ) * step) := by
  simp [arange, h]

/-- Sum of a function mapped over `List.range` as a `Finset.range` sum. -/
lemma sum_map_range (f : ℕ → ℚ) (n : ℕ) :
    ((List.range n).map f).sum = ∑ i ∈ Finset.range n, f i := by
  induction n with
  | zero => simp
  | succ n ih => simp [List.range_succ, Finset.sum_range_succ, ih]

/-- The step-count ceiling for the Trapezoidal `arange(a+h, b, h)` call:
with `h = (b-a)/N` it is exactly `N - 1`. -/
lemma trap_ceil (a b : ℚ) (N : ℕ) (hab : a < b) (hN : 1 ≤ N) :
    ⌈(b - (a + (b - a) / N)) / ((b - a) / N)⌉ = ((N - 1 : ℕ) : ℤ) := by
  have hba : b - a ≠ 0 := by linarith
  have hNQ : (N : ℚ) ≠ 0 := Nat.cast_ne_zero.mpr (by omega)
  have hh : (b - (a + (b - a) / N)) / ((b - a) / N) = (N : ℚ) - 1 := by
    field_simp
    ring
  rw [hh]
  have : (N : ℚ) - 1 = (((N : ℤ) - 1 : ℤ) : ℚ) := by push_cast; ring
  rw [this, Int.ceil_intCast]
  omega

/-- The step-count ceiling for the Simpson `arange(a+h, b, 2*h)` call:
with `h = (b-a)/N` and `N = 2M` it is exactly `M`. -/
lemma simpson_ceil_odd (a b : ℚ) (N M : ℕ) (hab : a < b) (hNM : N = 2 * M)
    (hM : 1 ≤ M) :
    ⌈(b - (a + (b - a) / N)) / (2 * ((b - a) / N))⌉ = (M : ℤ) := by
  have hba : (0 : ℚ) < b - a := by linarith
  have hNQ : (N : ℚ) ≠ 0 := Nat.cast_ne_zero.mpr (by omega)
  have hx : (b - (a + (b - a) / N)) / (2 * ((b - a) / N)) = (N : ℚ) / 2 - 1 / 2 := by
    field_simp
    ring
  rw [hx, hNM]
  rw [Int.ceil_eq_iff]
  push_cast
  constructor <;> linarith

/-- The step-count ceiling for the Simpson `arange(a+2*h, b, 2*h)` call:
with `h = (b-a)/N` and `N = 2M`, `M ≥ 1`, it is exactly `M - 1`. -/
lemma simpson_ceil_even (a b : ℚ) (N M : ℕ) (hab : a < b) (hNM : N = 2 * M)
    (hM : 1 ≤ M) :
    ⌈(b - (a + 2 * ((b - a) / N))) / (2 * ((b - a) / N))⌉ = ((M - 1 : ℕ) : ℤ) := by
  have hba : (0 : ℚ) < b - a := by linarith
  have hNQ : (N : ℚ) ≠ 0 := Nat.cast_ne_zero.mpr (by omega)
  have hx : (b - (a + 2 * ((b - a) / N))) / (2 * ((b - a) / N)) = (N : ℚ) / 2 - 1 := by
    field_simp
    ring
  rw [hx, hNM]
  have hy : ((2 * M : ℕ) : ℚ) / 2 - 1 = (((M - 1 : ℕ) : ℤ) : ℚ) := by
    push_cast [Nat.cast_sub hM]
    ring
  rw [hy, Int.ceil_intCast]

/-- The odd interior Simpson nodes `{k ∈ [1, N−1] : k odd}` are exactly the
image of `i ↦ 2i+1` on `range M` when `N = 2M`. -/
lemma odd_nodes_eq_image (N M : ℕ) (hNM : N = 2 * M) (hM : 1 ≤ M) :
    (Finset.Icc 1 (N - 1)).filter (fun k => k % 2 = 1)
      = (Finset.range M).image (fun i => 2 * i + 1) := by
  ext k
  simp only [Finset.mem_filter, Finset.mem_Icc, Finset.mem_image, Finset.mem_range]
  constructor
  · rintro ⟨⟨hk1, hk2⟩, hk3⟩
    exact ⟨k / 2, by omega, by omega⟩
  · rintro ⟨i, hi, rfl⟩
    omega

/-- The even interior Simpson nodes `{k ∈ [2, N−2] : k even}` are exactly the
image of `i ↦ 2i+2` on `range (M−1)` when `N = 2M`. -/
lemma even_nodes_eq_image (N M : ℕ) (hNM : N = 2 * M) (hM : 1 ≤ M) :
    (Finset.Icc 2 (N - 2)).filter (fun k => k % 2 = 0)
      = (Finset.range (M - 1)).image (fun i => 2 * i + 2) := by
  ext k
  simp only [Finset.mem_filter, Finset.mem_Icc, Finset.mem_image, Finset.mem_range]
  constructor
  · rintro ⟨⟨hk1, hk2⟩, hk3⟩
    exact ⟨k / 2 - 1, by omega, by omega⟩
  · rintro ⟨i, hi, rfl⟩
    omega

end Helpers

/-- Reference form of the Trapezoidal cell (shared auxiliary lemma). -/
lemma integral1_ref (f : ℚ → ℚ) (a b : ℚ) (N : ℕ)
    (hab : a < b) (hN : 1 ≤ N) :
    integral1 f a b N =
      ((b - a) / N) *
        ((1/2) * f a + (∑ k ∈ Finset.Icc 1 (N - 1), f (a + k * ((b - a) / N))) +
          (1/2) * f b) := by
  have hceil := trap_ceil a b N hab hN
  have harange := arange_eq_of_ceil hceil
  have hmap : ((arange (a + (b - a) / N) b ((b - a) / N)).map f).sum
      = ∑ i ∈ Finset.range (N - 1), f (a + (b - a) / N + (i : ℚ) * ((b - a) / N)) := by
    rw [harange, List.map_map, sum_map_range]
    simp [Function.comp]
  have hsum : (∑ k ∈ Finset.Icc 1 (N - 1), f (a + (k : ℚ) * ((b - a) / N)))
      = ∑ i ∈ Finset.range (N - 1), f (a + (b - a) / N + (i : ℚ) * ((b - a) / N)) := by
    have h1 : Finset.Icc 1 (N - 1) = Finset.Ico 1 N := by
      ext k; simp only [Finset.mem_Icc, Finset.mem_Ico]; omega
    rw [h1, Finset.sum_Ico_eq_sum_range]
    refine Finset.sum_congr rfl ?_
    intro i _
    congr 1
    push_cast
    ring
  simp only [integral1]
  rw [hmap, hsum]
  ring

/-- Reference form of the Simpson cell (shared auxiliary lemma). -/
lemma integral_ref (f : ℚ → ℚ) (a b : ℚ) (N : ℕ)
    (hab : a < b) (hN : 2 ≤ N) (hNe : N % 2 = 0) :
    integral f a b N =
      (((b - a) / N) / 3) *
        (f a
          + 4 * (∑ k ∈ (Finset.Icc 1 (N - 1)).filter (fun k => k % 2 = 1),
                  f (a + k * ((b - a) / N)))
          + 2 * (∑ k ∈ (Finset.Icc 2 (N - 2)).filter (fun k => k % 2 = 0),
                  f (a + k * ((b - a) / N)))
          + f b) := by
  obtain ⟨M, hNM⟩ : ∃ M, N = 2 * M := ⟨N / 2, by omega⟩
  have hM : 1 ≤ M := by omega
  have hodd_map : ((arange (a + (b - a) / N) b (2 * ((b - a) / N))).map f).sum
      = ∑ i ∈ Finset.range M, f (a + (b - a) / N + (i : ℚ) * (2 * ((b - a) / N))) := by
    rw [arange_eq_of_ceil (simpson_ceil_odd a b N M hab hNM hM),
      List.map_map, sum_map_range]
    simp [Function.comp]
  have heven_map : ((arange (a + 2 * ((b - a) / N)) b (2 * ((b - a) / N))).map f).sum
      = ∑ i ∈ Finset.range (M - 1),
          f (a + 2 * ((b - a) / N) + (i : ℚ) * (2 * ((b - a) / N))) := by
    rw [arange_eq_of_ceil (simpson_ceil_even a b N M hab hNM hM),
      List.map_map, sum_map_range]
    simp [Function.comp]
  have hodd_sum : (∑ k ∈ (Finset.Icc 1 (N - 1)).filter (fun k => k % 2 = 1),
        f (a + (k : ℚ) * ((b - a) / N)))
      = ∑ i ∈ Finset.range M, f (a + (b - a) / N + (i : ℚ) * (2 * ((b - a) / N))) := by
    rw [odd_nodes_eq_image N M hNM hM,
      Finset.sum_image (by intro x _ y _ hxy; omega)]
    refine Finset.sum_congr rfl ?_
    intro i _
    congr 1
    push_cast
    ring
  have heven_sum : (∑ k ∈ (Finset.Icc 2 (N - 2)).filter (fun k => k % 2 = 0),
        f (a + (k : ℚ) * ((b - a) / N)))
      = ∑ i ∈ Finset.range (M - 1),
          f (a + 2 * ((b - a) / N) + (i : ℚ) * (2 * ((b - a) / N))) := by
    rw [even_nodes_eq_image N M hNM hM,
      Finset.sum_image (by intro x _ y _ hxy; omega)]
    refine Finset.sum_congr rfl ?_
    intro i _
    congr 1
    push_cast
    ring
  simp only [integral]
  rw [hodd_map, heven_map, hodd_sum, heven_sum]
  ring

/-- **C1.** For every integrand `f`, interval `[a,b]` with `a < b` and bin
count `N ≥ 1`, the Trapezoidal-rule cell computes exactly the reference
value `h·(½f(a) + Σ_{k=1}^{N-1} f(a+kh) + ½f(b))` with `h = (b−a)/N`. -/
theorem integral1_eq_reference (f : ℚ → ℚ) (a b : ℚ) (N : ℕ)
    (hab : a < b) (hN : 1 ≤ N) :
    integral1 f a b N =
      ((b - a) / N) *
        ((1/2) * f a + (∑ k ∈ Finset.Icc 1 (N - 1), f (a + k * ((b - a) / N))) +
          (1/2) * f b) :=
  integral1_ref f a b N hab hN

/-- Witness for C1: the Trapezoidal cell on `f(x)=x²`, `[0,1]`, `N = 2`. -/
theorem integral1_eq_reference_witness :
    (0 : ℚ) < 1 ∧ (1 : ℕ) ≤ 2 ∧
      integral1 (fun x => x^2) 0 1 2 =
        (((1 : ℚ) - 0) / (2 : ℕ)) *
          ((1/2) * (0 : ℚ)^2 +
            (∑ k ∈ Finset.Icc (1 : ℕ) (2 - 1), ((0 : ℚ) + (k : ℚ) * (((1 : ℚ) - 0) / (2 : ℕ)))^2) +
            (1/2) * (1 : ℚ)^2) :=
  ⟨by norm_num, by norm_num,
    integral1_eq_reference (fun x => x^2) 0 1 2 (by norm_num) (by norm_num)⟩

/-- **C2.** For every integrand `f`, interval `[a,b]` with `a < b` and even
bin count `N ≥ 2`, the Simpson-rule cell computes exactly the reference
value `(h/3)·(f(a) + 4·Σ_{k odd,1..N-1} f(a+kh) + 2·Σ_{k even,2..N-2} f(a+kh)
+ f(b))` with `h = (b−a)/N`. -/
theorem integral_eq_reference (f : ℚ → ℚ) (a b : ℚ) (N : ℕ)
    (hab : a < b) (hN : 2 ≤ N) (hNe : N % 2 = 0) :
    integral f a b N =
      (((b - a) / N) / 3) *
        (f a
          + 4 * (∑ k ∈ (Finset.Icc 1 (N - 1)).filter (fun k => k % 2 = 1),
                  f (a + k * ((b - a) / N)))
          + 2 * (∑ k ∈ (Finset.Icc 2 (N - 2)).filter (fun k => k % 2 = 0),
                  f (a + k * ((b - a) / N)))
          + f b) :=
  integral_ref f a b N hab hN hNe

/-- Witness for C2: the Simpson cell on `f(x)=x²`, `[0,1]`, `N = 4`. -/
theorem integral_eq_reference_witness :
    (0 : ℚ) < 1 ∧ (2 : ℕ) ≤ 4 ∧ 4 % 2 = 0 ∧
      integral (fun x => x^2) 0 1 4 =
        ((((1 : ℚ) - 0) / (4 : ℕ)) / 3) *
          ((0 : ℚ)^2
            + 4 * (∑ k ∈ (Finset.Icc (1 : ℕ) (4 - 1)).filter (fun k => k % 2 = 1),
                    ((0 : ℚ) + (k : ℚ) * (((1 : ℚ) - 0) / (4 : ℕ)))^2)
            + 2 * (∑ k ∈ (Finset.Icc (2 : ℕ) (4 - 2)).filter (fun k => k % 2 = 0),
                    ((0 : ℚ) + (k : ℚ) * (((1 : ℚ) - 0) / (4 : ℕ)))^2)
            + (1 : ℚ)^2) :=
  ⟨by norm_num, by norm_num, by norm_num,
    integral_eq_reference (fun x => x^2) 0 1 4 (by norm_num) (by norm_num) (by norm_num)⟩

/-- **C5.** For `f(x) = x⁴` on `[0,1]` with `N = 10`, in exact arithmetic the
Trapezoidal cell returns exactly `20333/100000 = 0.20333` (absolute error
`333/100000`) and the Simpson cell returns exactly `60004/300000`
(absolute error `4/300000 ≈ 1.33e-5`). -/
theorem x4_N10_values :
    integral1 (fun x => x^4) 0 1 10 = 20333 / 100000 ∧
    |(1/5 : ℚ) - integral1 (fun x => x^4) 0 1 10| = 333 / 100000 ∧
    integral (fun x => x^4) 0 1 10 = 60004 / 300000 ∧
    |(1/5 : ℚ) - integral (fun x => x^4) 0 1 10| = 4 / 300000 := by
  have htrap : integral1 (fun x => x^4) 0 1 10 = 20333 / 100000 := by
    rw [integral1_ref (fun x => x^4) 0 1 10 (by norm_num) (by norm_num)]
    have hIcc : Finset.Icc (1 : ℕ) (10 - 1) = Finset.Ico 1 10 := by decide
    rw [hIcc, Finset.sum_Ico_eq_sum_range]
    simp only [Finset.sum_range_succ]
    norm_num
  have hsimp : integral (fun x => x^4) 0 1 10 = 60004 / 300000 := by
    rw [integral_ref (fun x => x^4) 0 1 10 (by norm_num) (by norm_num) (by norm_num)]
    have hodd : (Finset.Icc (1 : ℕ) (10 - 1)).filter (fun k => k % 2 = 1)
        = ({1, 3, 5, 7, 9} : Finset ℕ) := by decide
    have heven : (Finset.Icc (2 : ℕ) (10 - 2)).filter (fun k => k % 2 = 0)
        = ({2, 4, 6, 8} : Finset ℕ) := by decide
    rw [hodd, heven]
    norm_num [Finset.sum_insert, Finset.mem_insert, Finset.mem_singleton]
  refine ⟨htrap, ?_, hsimp, ?_⟩
  · rw [htrap]; norm_num
  · rw [hsimp]; norm_num

/-- **C6.** The Euler–McLaurin truncation-error estimate at step `h` with
endpoint derivative values `fpa = f'(a)`, `fpb = f'(b)` equals
`|(h²/12)·(f'(a) − f'(b))|`; in particular for `f(x)=x⁴` on `[0,1]`
(`f'(0)=0`, `f'(1)=4`) at `h = 10⁻⁶` it is exactly `h²/3`. -/
theorem error_mc_eq (h fpa fpb : ℚ) :
    error_mc h fpa fpb = |h^2 / 12 * (fpa - fpb)| ∧
    error_mc (1/1000000) 0 4 = (1/1000000 : ℚ)^2 / 3 := by
  constructor
  · rw [error_mc]
    ring_nf
  · rw [error_mc]
    rw [abs_of_nonpos (by norm_num)]
    norm_num

/-- **C3.** (spec-modelled validation) For every interval `[a,b]` (`a < b`
per the data model) and every bin count `N` that is odd or less than 2,
Simpson's rule fails with `InvalidPartition` and returns no numeric
result. -/
theorem integralChecked_rejects (f : ℚ → ℚ) (a b : ℚ) (N : ℕ)
    (hab : a < b) (hN : N % 2 = 1 ∨ N < 2) :
    integralChecked f a b N = .error .InvalidPartition := by
  rw [integralChecked, if_neg (not_le.mpr hab), if_pos (by omega)]

/-- Witness for C3: Simpson rejection at the spec's `N = 7` and `N = 0`. -/
theorem integralChecked_rejects_witness :
    ((0 : ℚ) < 1 ∧ (7 % 2 = 1 ∨ 7 < 2) ∧
      integralChecked (fun x => x^4) 0 1 7 = .error .InvalidPartition) ∧
    ((0 : ℚ) < 1 ∧ (0 % 2 = 1 ∨ 0 < 2) ∧
      integralChecked (fun x => x^4) 0 1 0 = .error .InvalidPartition) :=
  ⟨⟨by norm_num, by omega,
      integralChecked_rejects (fun x => x^4) 0 1 7 (by norm_num) (by omega)⟩,
    ⟨by norm_num, by omega,
      integralChecked_rejects (fun x => x^4) 0 1 0 (by norm_num) (by omega)⟩⟩

/-- **C4 counterexample.** At `a = b = 1`, `N = 0` — an input with `N < 1` —
the (spec-modelled) checked Trapezoidal rule fails with `InvalidInterval`,
not `InvalidPartition`: the interval check of §7 comes first, so the claim
"for every input with `N < 1` it fails with an InvalidPartition error" is
false on overlapping invalid inputs. -/
theorem integral1Checked_cex :
    integral1Checked (fun x => x^4) 1 1 0 = .error .InvalidInterval ∧
    integral1Checked (fun x => x^4) 1 1 0 ≠ .error .InvalidPartition := by
  constructor
  · rw [integral1Checked, if_pos le_rfl]
  · rw [integral1Checked, if_pos le_rfl]
    intro hcontra
    exact absurd (Except.error.inj hcontra) (by simp)

/-- **C4 (amended).** (spec-modelled validation) Every input with `a ≥ b`
fails with `InvalidInterval`; every input with `a < b` and `N < 1` fails
with `InvalidPartition`; in neither case is a numeric result returned. -/
theorem integral1Checked_rejects (f : ℚ → ℚ) (a b : ℚ) (N : ℕ) :
    (a ≥ b → integral1Checked f a b N = .error .InvalidInterval) ∧
    (a < b → N < 1 → integral1Checked f a b N = .error .InvalidPartition) := by
  constructor
  · intro hab
    rw [integral1Checked, if_pos hab]
  · intro hab hN
    rw [integral1Checked, if_neg (not_le.mpr hab), if_pos hN]

/-- Witness for C4 (amended): `a ≥ b` at `(1,0)`, and `N = 0` on `[0,1]`. -/
theorem integral1Checked_rejects_witness :
    integral1Checked (fun x => x^4) 1 0 5 = .error .InvalidInterval ∧
    integral1Checked (fun x => x^4) 0 1 0 = .error .InvalidPartition :=
  ⟨(integral1Checked_rejects (fun x => x^4) 1 0 5).1 (by norm_num),
    (integral1Checked_rejects (fun x => x^4) 0 1 0).2 (by norm_num) (by norm_num)⟩

/-- **C7.** (spec-modelled optimizer) For truncation exponent `p ∈ {2,4}`,
leading coefficient `C > 0` and round-off coefficient `ε > 0`, the
step-size optimizer returns an `h*` satisfying the equating heuristic
`C·(h*)^p = ε·(h*)^{-1/2}` together with the predicted total error at
`h*`; in particular for `p = 2`, `C = 1/3` the heuristic gives
`h* = (3ε)^{2/5}`, the value of the source's markdown derivation. -/
theorem optimize_heuristic (p C ε : ℝ) (hp : p = 2 ∨ p = 4)
    (hC : 0 < C) (hε : 0 < ε) :
    (C * (optimize p C ε).1 ^ p = ε * (optimize p C ε).1 ^ (-(1/2) : ℝ)) ∧
    (optimize p C ε).2 = totalError p C ε (optimize p C ε).1 ∧
    hStar 2 (1/3) ε = (3 * ε) ^ ((2 : ℝ)/5) := by
  have hden : (2 * p + 1) ≠ 0 := by rcases hp with h | h <;> rw [h] <;> norm_num
  have hx : (0 : ℝ) < ε / C := div_pos hε hC
  refine ⟨?_, rfl, ?_⟩
  · show C * ((ε / C) ^ ((2 : ℝ) / (2 * p + 1))) ^ p
        = ε * ((ε / C) ^ ((2 : ℝ) / (2 * p + 1))) ^ (-(1/2) : ℝ)
    rw [← Real.rpow_mul hx.le, ← Real.rpow_mul hx.le]
    have ha : (2 : ℝ) / (2 * p + 1) * p = 1 + (2 : ℝ) / (2 * p + 1) * (-(1/2)) := by
      field_simp
      ring
    rw [ha, Real.rpow_add hx, Real.rpow_one]
    field_simp
  · show (ε / (1/3)) ^ ((2 : ℝ) / (2 * 2 + 1)) = (3 * ε) ^ ((2 : ℝ)/5)
    norm_num
    ring_nf

/-- Witness for C7: `p = 2`, `C = 1/3`, `ε = 1`. -/
theorem optimize_heuristic_witness :
    ((2 : ℝ) = 2 ∨ (2 : ℝ) = 4) ∧ (0 : ℝ) < 1/3 ∧ (0 : ℝ) < 1 ∧
    (((1/3 : ℝ) * (optimize 2 (1/3) 1).1 ^ (2 : ℝ)
        = 1 * (optimize 2 (1/3) 1).1 ^ (-(1/2) : ℝ)) ∧
      (optimize 2 (1/3) 1).2 = totalError 2 (1/3) 1 (optimize 2 (1/3) 1).1 ∧
      hStar 2 (1/3) 1 = (3 * 1) ^ ((2 : ℝ)/5)) :=
  ⟨Or.inl rfl, by norm_num, by norm_num,
    optimize_heuristic 2 (1/3) 1 (Or.inl rfl) (by norm_num) (by norm_num)⟩

/-- Evaluation-point characterization for the Trapezoidal cell (auxiliary). -/
lemma integral1Points_spec (a b : ℚ) (N : ℕ) (hab : a < b) (hN : 1 ≤ N) :
    (integral1Points a b N).length = N + 1 ∧
    (∀ x, x ∈ integral1Points a b N ↔
      ∃ k, k ≤ N ∧ x = a + (k : ℚ) * ((b - a) / N)) := by
  have hNQ : (N : ℚ) ≠ 0 := Nat.cast_ne_zero.mpr (by omega)
  have hb : b = a + (N : ℚ) * ((b - a) / N) := by
    field_simp
  have harange := arange_eq_of_ceil (trap_ceil a b N hab hN)
  constructor
  · simp only [integral1Points, List.length_append, harange, List.length_map,
      List.length_range, List.length_cons, List.length_nil]
    omega
  · intro x
    simp only [integral1Points, harange, List.mem_append, List.mem_cons,
      List.not_mem_nil, or_false, List.mem_map, List.mem_range]
    constructor
    · rintro ((rfl | rfl) | ⟨i, hi, rfl⟩)
      · exact ⟨0, by omega, by push_cast; ring⟩
      · exact ⟨N, le_rfl, hb⟩
      · exact ⟨i + 1, by omega, by push_cast; ring⟩
    · rintro ⟨k, hk, rfl⟩
      rcases Nat.eq_or_lt_of_le (Nat.zero_le k) with hk0 | hk0
      · left; left
        rw [← hk0]
        push_cast
        ring
      · rcases Nat.eq_or_lt_of_le hk with hkN | hkN
        · left; right
          rw [hkN]
          exact hb.symm
        · right
          refine ⟨k - 1, by omega, ?_⟩
          push_cast [Nat.cast_sub (by omega : 1 ≤ k)]
          ring

/-- Evaluation-point characterization for the Simpson cell (auxiliary). -/
lemma integralPoints_spec (a b : ℚ) (N : ℕ) (hab : a < b) (hN : 2 ≤ N)
    (hNe : N % 2 = 0) :
    (integralPoints a b N).length = N + 1 ∧
    (∀ x, x ∈ integralPoints a b N ↔
      ∃ k, k ≤ N ∧ x = a + (k : ℚ) * ((b - a) / N)) := by
  obtain ⟨M, hNM⟩ : ∃ M, N = 2 * M := ⟨N / 2, by omega⟩
  have hM : 1 ≤ M := by omega
  have hNQ : (N : ℚ) ≠ 0 := Nat.cast_ne_zero.mpr (by omega)
  have hb : b = a + (N : ℚ) * ((b - a) / N) := by
    field_simp
  have hodd := arange_eq_of_ceil (simpson_ceil_odd a b N M hab hNM hM)
  have heven := arange_eq_of_ceil (simpson_ceil_even a b N M hab hNM hM)
  constructor
  · simp only [integralPoints, List.length_append, hodd, heven, List.length_map,
      List.length_range, List.length_cons, List.length_nil]
    omega
  · intro x
    simp only [integralPoints, hodd, heven, List.mem_append, List.mem_cons,
      List.not_mem_nil, or_false, List.mem_map, List.mem_range]
    constructor
    · rintro (((rfl | rfl) | ⟨i, hi, rfl⟩) | ⟨i, hi, rfl⟩)
      · exact ⟨0, by omega, by push_cast; ring⟩
      · exact ⟨N, le_rfl, hb⟩
      · exact ⟨2 * i + 1, by omega, by push_cast; ring⟩
      · exact ⟨2 * i + 2, by omega, by push_cast; ring⟩
    · rintro ⟨k, hk, rfl⟩
      rcases Nat.eq_or_lt_of_le (Nat.zero_le k) with hk0 | hk0
      · left; left; left
        rw [← hk0]
        push_cast
        ring
      · rcases Nat.eq_or_lt_of_le hk with hkN | hkN
        · left; left; right
          rw [hkN]
          exact hb.symm
        · rcases Nat.even_or_odd k with ⟨j, hj⟩ | ⟨j, hj⟩
          · right
            refine ⟨j - 1, by omega, ?_⟩
            push_cast [Nat.cast_sub (by omega : 1 ≤ j)]
            rw [hj]
            push_cast
            ring
          · left; right
            refine ⟨j, by omega, ?_⟩
            rw [hj]
            push_cast
            ring

/-- **C8.** For every interval `[a,b]` with `a < b` and every valid `N`, each
rule evaluates the integrand at exactly the `N+1` equally spaced nodes
`a + k·h`, `k = 0..N` (`h = (b−a)/N`): the list of evaluation points has
length `N+1` and its members are precisely those nodes (which include
both endpoints, at `k = 0` and `k = N`). -/
theorem quadrature_eval_points (a b : ℚ) (N : ℕ) (hab : a < b) :
    (1 ≤ N →
      (integral1Points a b N).length = N + 1 ∧
      (∀ x, x ∈ integral1Points a b N ↔
        ∃ k, k ≤ N ∧ x = a + (k : ℚ) * ((b - a) / N))) ∧
    (2 ≤ N → N % 2 = 0 →
      (integralPoints a b N).length = N + 1 ∧
      (∀ x, x ∈ integralPoints a b N ↔
        ∃ k, k ≤ N ∧ x = a + (k : ℚ) * ((b - a) / N))) :=
  ⟨fun hN => integral1Points_spec a b N hab hN,
    fun hN hNe => integralPoints_spec a b N hab hN hNe⟩

/-- Witness for C8: `[0,1]` with `N = 2`, membership tested at `x = 1/2`. -/
theorem quadrature_eval_points_witness :
    ((integral1Points 0 1 2).length = 2 + 1 ∧
      ((1/2 : ℚ) ∈ integral1Points 0 1 2 ↔
        ∃ (k : ℕ), k ≤ 2 ∧ (1/2 : ℚ) = 0 + (k : ℚ) * (((1 : ℚ) - 0) / (2 : ℕ)))) ∧
    ((integralPoints 0 1 2).length = 2 + 1 ∧
      ((1/2 : ℚ) ∈ integralPoints 0 1 2 ↔
        ∃ (k : ℕ), k ≤ 2 ∧ (1/2 : ℚ) = 0 + (k : ℚ) * (((1 : ℚ) - 0) / (2 : ℕ)))) :=
  ⟨⟨((quadrature_eval_points 0 1 2 (by norm_num)).1 (by norm_num)).1,
      ((quadrature_eval_points 0 1 2 (by norm_num)).1 (by norm_num)).2 (1/2)⟩,
    ⟨((quadrature_eval_points 0 1 2 (by norm_num)).2 (by norm_num) (by norm_num)).1,
      ((quadrature_eval_points 0 1 2 (by norm_num)).2 (by norm_num) (by norm_num)).2 (1/2)⟩⟩

/-- Pointwise linear combinations pass through a mapped list sum. -/
lemma sum_map_linear (l : List ℚ) (f g : ℚ → ℚ) (c : ℚ) :
    (l.map (fun x => c * f x + g x)).sum = c * (l.map f).sum + (l.map g).sum := by
  induction l with
  | nil => simp
  | cons x xs ih =>
      simp only [List.map_cons, List.sum_cons, ih]
      ring

/-- **C9.** In exact arithmetic both rules are linear in the integrand: for
every interval `[a,b]` with `a < b`, every valid `N`, all integrands `f`,
`g` and every scalar `c`,
`rule(x ↦ c·f(x) + g(x)) = c·rule(f) + rule(g)`. -/
theorem quadrature_linear (f g : ℚ → ℚ) (c : ℚ) (a b : ℚ) (N : ℕ)
    (hab : a < b) :
    (1 ≤ N →
      integral1 (fun x => c * f x + g x) a b N
        = c * integral1 f a b N + integral1 g a b N) ∧
    (2 ≤ N → N % 2 = 0 →
      integral (fun x => c * f x + g x) a b N
        = c * integral f a b N + integral g a b N) := by
  constructor
  · intro _
    simp only [integral1]
    rw [sum_map_linear]
    ring
  · intro _ _
    simp only [integral]
    rw [sum_map_linear, sum_map_linear]
    ring

/-- Witness for C9: `f(x)=x²`, `g(x)=x`, `c = 3` on `[0,1]`, `N = 2`. -/
theorem quadrature_linear_witness :
    integral1 (fun x => 3 * x^2 + x) 0 1 2
      = 3 * integral1 (fun x => x^2) 0 1 2 + integral1 (fun x => x) 0 1 2 ∧
    integral (fun x => 3 * x^2 + x) 0 1 2
      = 3 * integral (fun x => x^2) 0 1 2 + integral (fun x => x) 0 1 2 :=
  ⟨(quadrature_linear (fun x => x^2) (fun x => x) 3 0 1 2 (by norm_num)).1
      (by norm_num),
    (quadrature_linear (fun x => x^2) (fun x => x) 3 0 1 2 (by norm_num)).2
      (by norm_num) (by norm_num)⟩

/-- The Simpson cell as plain `Finset.range` sums (auxiliary). -/
lemma integral_range_sum (f : ℚ → ℚ) (a b : ℚ) (N M : ℕ) (hab : a < b)
    (hNM : N = 2 * M) (hM : 1 ≤ M) :
    integral f a b N = ((b - a) / N) * (1/3) *
      (f a + f b
        + 4 * ∑ i ∈ Finset.range M,
            f (a + (b - a) / N + (i : ℚ) * (2 * ((b - a) / N)))
        + 2 * ∑ i ∈ Finset.range (M - 1),
            f (a + 2 * ((b - a) / N) + (i : ℚ) * (2 * ((b - a) / N)))) := by
  have hodd_map : ((arange (a + (b - a) / N) b (2 * ((b - a) / N))).map f).sum
      = ∑ i ∈ Finset.range M, f (a + (b - a) / N + (i : ℚ) * (2 * ((b - a) / N))) := by
    rw [arange_eq_of_ceil (simpson_ceil_odd a b N M hab hNM hM),
      List.map_map, sum_map_range]
    simp [Function.comp]
  have heven_map : ((arange (a + 2 * ((b - a) / N)) b (2 * ((b - a) / N))).map f).sum
      = ∑ i ∈ Finset.range (M - 1),
          f (a + 2 * ((b - a) / N) + (i : ℚ) * (2 * ((b - a) / N))) := by
    rw [arange_eq_of_ceil (simpson_ceil_even a b N M hab hNM hM),
      List.map_map, sum_map_range]
    simp [Function.comp]
  simp only [integral]
  rw [hodd_map, heven_map]

/-- Simpson is exact on cubics: the ℚ-side computation (auxiliary). -/
lemma integral_cubic (c0 c1 c2 c3 a b : ℚ) (N : ℕ) (hab : a < b)
    (hN : 2 ≤ N) (hNe : N % 2 = 0) :
    integral (cubic c0 c1 c2 c3) a b N = cubicIntegral c0 c1 c2 c3 a b := by
  obtain ⟨M, hNM⟩ : ∃ M, N = 2 * M := ⟨N / 2, by omega⟩
  obtain ⟨m, rfl⟩ : ∃ m, M = m + 1 := ⟨M - 1, by omega⟩
  have hNQ : (N : ℚ) ≠ 0 := Nat.cast_ne_zero.mpr (by omega)
  rw [integral_range_sum (cubic c0 c1 c2 c3) a b N (m + 1) hab hNM (by omega),
    Nat.add_sub_cancel]
  set h : ℚ := (b - a) / N with hh
  have h2M : a + ((m : ℚ) + 1) * (2 * h) = b := by
    rw [hh, hNM]
    field_simp
    ring
  have e1 : ∑ j ∈ Finset.range (m + 1), cubic c0 c1 c2 c3 (a + (j : ℚ) * (2 * h))
      = cubic c0 c1 c2 c3 a
        + ∑ i ∈ Finset.range m, cubic c0 c1 c2 c3 (a + 2 * h + (i : ℚ) * (2 * h)) := by
    rw [Finset.sum_range_succ', add_comm]
    congr 1
    · norm_num
    · refine Finset.sum_congr rfl fun i _ => ?_
      congr 1
      push_cast
      ring
  have e2 : ∑ j ∈ Finset.range (m + 1), cubic c0 c1 c2 c3 (a + (j : ℚ) * (2 * h) + 2 * h)
      = (∑ i ∈ Finset.range m, cubic c0 c1 c2 c3 (a + 2 * h + (i : ℚ) * (2 * h)))
        + cubic c0 c1 c2 c3 b := by
    rw [Finset.sum_range_succ]
    congr 1
    · refine Finset.sum_congr rfl fun i _ => ?_
      congr 1
      ring
    · congr 1
      rw [← h2M]
      ring
  have e3 : ∑ j ∈ Finset.range (m + 1), cubic c0 c1 c2 c3 (a + (j : ℚ) * (2 * h) + h)
      = ∑ i ∈ Finset.range (m + 1), cubic c0 c1 c2 c3 (a + h + (i : ℚ) * (2 * h)) := by
    refine Finset.sum_congr rfl fun i _ => ?_
    congr 1
    ring
  have expand : ∀ j ∈ Finset.range (m + 1),
      cubicPrim c0 c1 c2 c3 (a + ((j + 1 : ℕ) : ℚ) * (2 * h))
          - cubicPrim c0 c1 c2 c3 (a + (j : ℚ) * (2 * h))
        = (h/3) * (cubic c0 c1 c2 c3 (a + (j : ℚ) * (2 * h))
            + 4 * cubic c0 c1 c2 c3 (a + (j : ℚ) * (2 * h) + h)
            + cubic c0 c1 c2 c3 (a + (j : ℚ) * (2 * h) + 2 * h)) := by
    intro j _
    simp only [cubic, cubicPrim]
    push_cast
    ring
  have tele : ∑ j ∈ Finset.range (m + 1),
      (cubicPrim c0 c1 c2 c3 (a + ((j + 1 : ℕ) : ℚ) * (2 * h))
        - cubicPrim c0 c1 c2 c3 (a + (j : ℚ) * (2 * h)))
      = cubicPrim c0 c1 c2 c3 b - cubicPrim c0 c1 c2 c3 a := by
    rw [Finset.sum_range_sub (fun j : ℕ => cubicPrim c0 c1 c2 c3 (a + (j : ℚ) * (2 * h)))]
    congr 1
    · congr 1
      rw [← h2M]
      push_cast
      ring
    · congr 1
      norm_num
  have dist : ∑ j ∈ Finset.range (m + 1),
      (h/3) * (cubic c0 c1 c2 c3 (a + (j : ℚ) * (2 * h))
        + 4 * cubic c0 c1 c2 c3 (a + (j : ℚ) * (2 * h) + h)
        + cubic c0 c1 c2 c3 (a + (j : ℚ) * (2 * h) + 2 * h))
      = (h/3) * ((∑ j ∈ Finset.range (m + 1), cubic c0 c1 c2 c3 (a + (j : ℚ) * (2 * h)))
          + 4 * (∑ j ∈ Finset.range (m + 1), cubic c0 c1 c2 c3 (a + (j : ℚ) * (2 * h) + h))
          + (∑ j ∈ Finset.range (m + 1), cubic c0 c1 c2 c3 (a + (j : ℚ) * (2 * h) + 2 * h))) := by
    rw [← Finset.mul_sum]
    congr 1
    rw [Finset.sum_add_distrib, Finset.sum_add_distrib, ← Finset.mul_sum]
  calc h * (1/3) *
        (cubic c0 c1 c2 c3 a + cubic c0 c1 c2 c3 b
          + 4 * ∑ i ∈ Finset.range (m + 1), cubic c0 c1 c2 c3 (a + h + (i : ℚ) * (2 * h))
          + 2 * ∑ i ∈ Finset.range m, cubic c0 c1 c2 c3 (a + 2 * h + (i : ℚ) * (2 * h)))
      = (h/3) * ((cubic c0 c1 c2 c3 a
            + ∑ i ∈ Finset.range m, cubic c0 c1 c2 c3 (a + 2 * h + (i : ℚ) * (2 * h)))
          + 4 * (∑ i ∈ Finset.range (m + 1), cubic c0 c1 c2 c3 (a + h + (i : ℚ) * (2 * h)))
          + ((∑ i ∈ Finset.range m, cubic c0 c1 c2 c3 (a + 2 * h + (i : ℚ) * (2 * h)))
            + cubic c0 c1 c2 c3 b)) := by ring
    _ = (h/3) * ((∑ j ∈ Finset.range (m + 1), cubic c0 c1 c2 c3 (a + (j : ℚ) * (2 * h)))
          + 4 * (∑ j ∈ Finset.range (m + 1), cubic c0 c1 c2 c3 (a + (j : ℚ) * (2 * h) + h))
          + (∑ j ∈ Finset.range (m + 1), cubic c0 c1 c2 c3 (a + (j : ℚ) * (2 * h) + 2 * h))) := by
        rw [e1, e2, e3]
    _ = ∑ j ∈ Finset.range (m + 1),
          (h/3) * (cubic c0 c1 c2 c3 (a + (j : ℚ) * (2 * h))
            + 4 * cubic c0 c1 c2 c3 (a + (j : ℚ) * (2 * h) + h)
            + cubic c0 c1 c2 c3 (a + (j : ℚ) * (2 * h) + 2 * h)) := dist.symm
    _ = ∑ j ∈ Finset.range (m + 1),
          (cubicPrim c0 c1 c2 c3 (a + ((j + 1 : ℕ) : ℚ) * (2 * h))
            - cubicPrim c0 c1 c2 c3 (a + (j : ℚ) * (2 * h))) :=
        (Finset.sum_congr rfl expand).symm
    _ = cubicPrim c0 c1 c2 c3 b - cubicPrim c0 c1 c2 c3 a := tele
    _ = cubicIntegral c0 c1 c2 c3 a b := rfl

/-- The interval integral of a real cubic in closed form (auxiliary). -/
lemma cubic_intervalIntegral (C0 C1 C2 C3 A B : ℝ) :
    (∫ x in A..B, (C0 + C1 * x + C2 * x^2 + C3 * x^3))
      = (C0*B + C1*B^2/2 + C2*B^3/3 + C3*B^4/4)
        - (C0*A + C1*A^2/2 + C2*A^3/3 + C3*A^4/4) := by
  have i0 : IntervalIntegrable (fun _ : ℝ => C0) MeasureTheory.volume A B :=
    continuous_const.intervalIntegrable A B
  have i1 : IntervalIntegrable (fun x : ℝ => C1 * x) MeasureTheory.volume A B :=
    (continuous_const.mul continuous_id).intervalIntegrable A B
  have i2 : IntervalIntegrable (fun x : ℝ => C2 * x^2) MeasureTheory.volume A B :=
    (continuous_const.mul (continuous_pow 2)).intervalIntegrable A B
  have i3 : IntervalIntegrable (fun x : ℝ => C3 * x^3) MeasureTheory.volume A B :=
    (continuous_const.mul (continuous_pow 3)).intervalIntegrable A B
  rw [intervalIntegral.integral_add ((i0.add i1).add i2) i3,
    intervalIntegral.integral_add (i0.add i1) i2,
    intervalIntegral.integral_add i0 i1,
    intervalIntegral.integral_const, intervalIntegral.integral_const_mul,
    intervalIntegral.integral_const_mul, intervalIntegral.integral_const_mul,
    integral_id, integral_pow, integral_pow]
  simp only [smul_eq_mul]
  ring

/-- **C10.** In exact arithmetic Simpson's rule is exact on every cubic
`c₀ + c₁x + c₂x² + c₃x³`: for every interval `[a,b]` with `a < b` and every
even `N ≥ 2`, the Simpson cell's value equals the true integral
`∫_a^b (c₀ + c₁x + c₂x² + c₃x³) dx`. -/
theorem integral_exact_cubic (c0 c1 c2 c3 a b : ℚ) (N : ℕ) (hab : a < b)
    (hN : 2 ≤ N) (hNe : N % 2 = 0) :
    ((integral (cubic c0 c1 c2 c3) a b N : ℚ) : ℝ)
      = ∫ x in (a : ℝ)..(b : ℝ),
          ((c0 : ℝ) + (c1 : ℝ) * x + (c2 : ℝ) * x^2 + (c3 : ℝ) * x^3) := by
  rw [integral_cubic c0 c1 c2 c3 a b N hab hN hNe, cubic_intervalIntegral]
  simp only [cubicIntegral, cubicPrim]
  push_cast
  ring

/-- Witness for C10: `f(x) = x³` on `[0,1]` with `N = 2`. -/
theorem integral_exact_cubic_witness :
    (0 : ℚ) < 1 ∧ (2 : ℕ) ≤ 2 ∧ 2 % 2 = 0 ∧
    ((integral (cubic 0 0 0 1) 0 1 2 : ℚ) : ℝ)
      = ∫ x in ((0 : ℚ) : ℝ)..((1 : ℚ) : ℝ),
          (((0 : ℚ) : ℝ) + ((0 : ℚ) : ℝ) * x + ((0 : ℚ) : ℝ) * x^2
            + ((1 : ℚ) : ℝ) * x^3) :=
  ⟨by norm_num, by norm_num, by norm_num,
    integral_exact_cubic 0 0 0 1 0 1 2 (by norm_num) (by norm_num) (by norm_num)⟩
